import Mathlib

/-!
Shallow embedding of the finopsaudit classification/coverage core.

Sources embedded here:
- src/Audit/AuditPhaseTwo.py  : protect-set display form, glued-name coverage sweep
- src/Audit/AuditPhaseOne.py  : masking cascade, metrics (entropy, pct_removed), is_glued
- src/Configuration/AuditConfig.py, GlobalConfig.py : constants and regex shapes
- src/EntityMerger/EntityNameSimilarity.py : neighbor top-K retention, canonical selection

Strings are modelled as `List Char`.  Python regexes are hand-compiled into
boundary-aware matcher functions that reproduce the exact patterns of the
source (`[A-Za-z0-9]` boundary classes, case-insensitive alternations of
vocabulary terms, GUID / HEX / NUM shapes).  NFKC normalization is modelled as
the identity, which is exact on the ASCII inputs considered throughout.
Loops are written with explicit fuel so every definition kernel-evaluates;
fuel is always chosen large enough that it is never exhausted on the real
control flow (each loop strictly advances its index).
-/

namespace FinOps

/-- ASCII alphanumeric test, the regex class `[A-Za-z0-9]` used by every
boundary lookaround in the source. -/
def isAlnumA (c : Char) : Bool :=
  ('A' ≤ c && c ≤ 'Z') || ('a' ≤ c && c ≤ 'z') || ('0' ≤ c && c ≤ '9')

/-- ASCII letter test, the regex class `[A-Za-z]`. -/
def isLetterA (c : Char) : Bool :=
  ('A' ≤ c && c ≤ 'Z') || ('a' ≤ c && c ≤ 'z')

/-- ASCII decimal digit, the regex class `\d` (on the ASCII inputs considered). -/
def isDigitA (c : Char) : Bool := '0' ≤ c && c ≤ '9'

/-- Case-insensitive hex digit, the regex class `[0-9a-f]` under re.IGNORECASE. -/
def isHexA (c : Char) : Bool :=
  isDigitA c || ('a' ≤ c && c ≤ 'f') || ('A' ≤ c && c ≤ 'F')

/-- Hex letter (`[a-f]` under re.IGNORECASE), used by the HEX pattern's
letter-count requirement. -/
def isHexLetterA (c : Char) : Bool :=
  ('a' ≤ c && c ≤ 'f') || ('A' ≤ c && c ≤ 'F')

/-- Case-insensitive character equality, re.IGNORECASE semantics (ASCII). -/
def lowEq (a b : Char) : Bool := a.toLower == b.toLower

/-- Does `t` occur case-insensitively in `s` starting exactly at offset `i`? -/
def ciMatchAt (t : List Char) (s : List Char) (i : Nat) : Bool :=
  decide (i + t.length ≤ s.length) &&
    (List.zip t ((s.drop i).take t.length)).all (fun p => lowEq p.1 p.2)

/-- The lookbehind `(?<![A-Za-z0-9])` (equivalently `(?:(?<=^)|(?<=[^A-Za-z0-9]))`)
evaluated at offset `i` of `s`. -/
def boundaryBeforeAt (s : List Char) (i : Nat) : Bool :=
  i == 0 || !(isAlnumA (s.getD (i - 1) ' '))

/-- The lookahead `(?![A-Za-z0-9])` (equivalently `(?:(?=$)|(?=[^A-Za-z0-9]))`)
evaluated at offset `j` of `s`. -/
def boundaryAfterAt (s : List Char) (j : Nat) : Bool :=
  decide (s.length ≤ j) || !(isAlnumA (s.getD j ' '))

/-!  Phase-two matchers (AuditPhaseTwo._compile_* / class_regexes), used by the
glued-name coverage sweep via `pattern.match(name, i)`: each returns the END
offset of a match anchored at offset `i`, or `none`. -/

/-- AuditPhaseTwo._compile_term_regex: the term alternation
`(?<![A-Za-z0-9])(?:t1|t2|...)(?![A-Za-z0-9])` (IGNORECASE) anchored at `i`.
Alternatives are tried in list order, as the regex engine does; an empty term
list models the never-matching pattern compiled from an empty vocabulary. -/
def termMatchAtP2 (terms : List (List Char)) (s : List Char) (i : Nat) : Option Nat :=
  if boundaryBeforeAt s i then
    terms.findSome? (fun t =>
      if ciMatchAt t s i && boundaryAfterAt s (i + t.length) then some (i + t.length)
      else none)
  else none

/-- AuditPhaseTwo._compile_tech_regex:
`(?<![A-Za-z0-9])(?:...)(?![A-Za-z0-9])(?=[^A-Za-z]|$)` anchored at `i`.
Both lookaheads are written out exactly as in the source. -/
def techMatchAtP2 (terms : List (List Char)) (s : List Char) (i : Nat) : Option Nat :=
  if boundaryBeforeAt s i then
    terms.findSome? (fun t =>
      let j := i + t.length
      if ciMatchAt t s i && boundaryAfterAt s j
          && (decide (s.length ≤ j) || !(isLetterA (s.getD j ' '))) then some j
      else none)
  else none

/-- A block of exactly `k` hex digits occupying offsets `[i, i+k)` of `s`. -/
def hexBlockAt (s : List Char) (i k : Nat) : Bool :=
  decide (i + k ≤ s.length) && ((s.drop i).take k).all isHexA

/-- A literal dash at offset `i` of `s`. -/
def dashAt (s : List Char) (i : Nat) : Bool :=
  decide (i < s.length) && (s.getD i ' ' == '-')

/-- The dashed GUID alternative `[0-9a-f]{8}(?:-[0-9a-f]{4}){3}-[0-9a-f]{12}`
anchored at `i` (36 characters). -/
def dashedGuidAt (s : List Char) (i : Nat) : Bool :=
  hexBlockAt s i 8 && dashAt s (i + 8) && hexBlockAt s (i + 9) 4 &&
    dashAt s (i + 13) && hexBlockAt s (i + 14) 4 && dashAt s (i + 18) &&
    hexBlockAt s (i + 19) 4 && dashAt s (i + 23) && hexBlockAt s (i + 24) 12

/-- AuditPhaseTwo._compile_guid_regex:
`(?<![A-Za-z0-9])(GUID_REGEX)(?![A-Za-z0-9])` (IGNORECASE) anchored at `i`,
where GUID_REGEX is the dashed 8-4-4-4-12 form or a bare 32-hex run; the
engine tries the dashed alternative first, falling back to the 32-hex one. -/
def guidMatchAtP2 (s : List Char) (i : Nat) : Option Nat :=
  if !boundaryBeforeAt s i then none
  else if dashedGuidAt s i && boundaryAfterAt s (i + 36) then some (i + 36)
  else if hexBlockAt s i 32 && boundaryAfterAt s (i + 32) then some (i + 32)
  else none

/-- AuditPhaseTwo._compile_numeric_regex: `(?<![A-Za-z0-9])\d+(?![A-Za-z0-9])`
anchored at `i`.  The greedy digit run must end at a non-alphanumeric boundary:
any shorter backtracked run would be followed by a digit and fail the lookahead. -/
def numMatchAtP2 (s : List Char) (i : Nat) : Option Nat :=
  if boundaryBeforeAt s i then
    let k := ((s.drop i).takeWhile isDigitA).length
    if decide (1 ≤ k) && boundaryAfterAt s (i + k) then some (i + k) else none
  else none

/-- The five coverage-sweep matchers in the fixed precedence order
`class_precedence = ['GUID', 'TECH', 'ENV', 'REG', 'NUM']` of the source. -/
def sweepMatchers (tech env reg : List (List Char)) :
    List (String × (List Char → Nat → Option Nat)) :=
  [("GUID", guidMatchAtP2),
   ("TECH", techMatchAtP2 tech),
   ("ENV", termMatchAtP2 env),
   ("REG", termMatchAtP2 reg),
   ("NUM", numMatchAtP2)]

/-- One protect-set hit recorded by the overlay (chunk, [start, stop)). -/
structure PHit where
  chunk : List Char
  start : Nat
  stop : Nat
deriving DecidableEq

/-- One coverage-sequence segment (class tag, [start, stop)). -/
structure Seg where
  cls : String
  start : Nat
  stop : Nat
deriving DecidableEq

/-- Is position `p` inside hit `h`? -/
def inHit (h : PHit) (p : Nat) : Bool := decide (h.start ≤ p) && decide (p < h.stop)

/-- Is position `p` covered by some already accepted protect-set hit? -/
def coveredByHits (hits : List PHit) (p : Nat) : Bool := hits.any (fun h => inHit h p)

/-- Is position `p` inside segment `g`? -/
def inSeg (g : Seg) (p : Nat) : Bool := decide (g.start ≤ p) && decide (p < g.stop)

/-- Is position `p` covered by a protect-set hit or an accepted sweep segment?
This is the `covered` array of `_analyze_glued_names`: positions are marked
exactly when a hit or a segment is accepted over them. -/
def coveredPos (hits : List PHit) (segs : List Seg) (p : Nat) : Bool :=
  coveredByHits hits p || segs.any (fun g => inSeg g p)

/-- The finditer-plus-acceptance loop of `_analyze_glued_names` for a single
protect-set chunk: scan `name` left to right for case-insensitive occurrences
of `chunk` (non-overlapping, resuming after each found occurrence, exactly as
`re.finditer` does); accept an occurrence only if none of its positions are
already covered by previously accepted hits.  Fuel `name.length + 1` is enough
because every step advances the scan position. -/
def scanChunk (name chunk : List Char) (acc : List PHit) (i fuel : Nat) : List PHit :=
  match fuel with
  | 0 => acc
  | fuel + 1 =>
    if ciMatchAt chunk name i then
      scanChunk name chunk
        (if (List.range' i chunk.length).all (fun p => !(coveredByHits acc p)) then
          acc ++ [⟨chunk, i, i + chunk.length⟩]
        else acc)
        (i + chunk.length) fuel
    else if i < name.length then scanChunk name chunk acc (i + 1) fuel
    else acc

/-- Step 1 of `_analyze_glued_names`: overlay all protect-set chunks (the
caller passes them sorted longest first, as `p_chunks` is). -/
def overlayHits (chunks : List (List Char)) (name : List Char) : List PHit :=
  chunks.foldl (fun acc c => scanChunk name c acc 0 (name.length + 1)) []

/-- One iteration of the best-match loop of `_analyze_glued_names` (lines
322-331): replace the current best only on a strictly longer match
(`len(match.group(0)) > len(best_match.group(0))`), so equal-length ties keep
the earlier (higher-precedence) class. -/
def selectStep (best : Option (String × Nat)) (c : String × Option Nat) :
    Option (String × Nat) :=
  match c.2 with
  | none => best
  | some l =>
    match best with
    | none => some (c.1, l)
    | some (bc, bl) => if bl < l then some (c.1, l) else some (bc, bl)

/-- The best-match fold of `_analyze_glued_names`: walk the candidate
(class, optional match length) list in precedence order. -/
def selectBest (cands : List (String × Option Nat)) : Option (String × Nat) :=
  cands.foldl selectStep none

/-- The residual coverage sweep (Step 2 of `_analyze_glued_names`): scan left
to right; skip covered or whitespace positions; at an uncovered position ask
every class matcher for a match anchored there and take the longest
(precedence breaking ties); on no match stop with the failure offset.
Matchers return END offsets; since every match is anchored at `i`, comparing
lengths `e - i` is exactly the source's `len(match.group(0))` comparison.
Returns (glued_explained, coverage_fail_offset, coverage_sequence). -/
def sweepLoop (ms : List (String × (List Char → Nat → Option Nat))) (name : List Char)
    (hits : List PHit) (i : Nat) (segs : List Seg) (fuel : Nat) :
    Bool × Int × List Seg :=
  match fuel with
  | 0 => (true, -1, segs)
  | fuel + 1 =>
    if i < name.length then
      if coveredPos hits segs i || (name.getD i ' ').isWhitespace then
        sweepLoop ms name hits (i + 1) segs fuel
      else
        match selectBest (ms.map (fun cm => (cm.1, (cm.2 name i).map (fun e => e - i)))) with
        | some cl =>
          if 1 ≤ cl.2 then
            sweepLoop ms name hits (i + cl.2) (segs ++ [⟨cl.1, i, i + cl.2⟩]) fuel
          else (true, -1, segs)
        | none => (false, Int.ofNat i, segs)
    else (true, -1, segs)

/-- The masked rendering built when a glued name is fully explained: every
position of a coverage segment is blanked, and the segment's start position is
replaced by its class placeholder (protect-set hit spans are left as-is, as in
the source, which iterates only over `coverage_sequence`). -/
def renderMasked (name : List Char) (segs : List Seg) : String :=
  String.join ((List.range name.length).map (fun i =>
    match segs.find? (fun g => g.start == i) with
    | some g => "⟂" ++ g.cls ++ "⟂"
    | none =>
      if segs.any (fun g => inSeg g i) then ""
      else String.mk [name.getD i ' ']))

/-- The per-name record produced by `_analyze_glued_names`. -/
structure GluedResult where
  protected_hits : List PHit
  glued_explained : Bool
  coverage_sequence : List Seg
  coverage_fail_offset : Int
  glued_masked_string : Option String
deriving DecidableEq

/-- AuditConfig.AUDIT_GLUED_COVERAGE_NO_P_HITS. -/
def AUDIT_GLUED_COVERAGE_NO_P_HITS : Bool := true

/-- The full per-name body of `AuditPhaseTwo._analyze_glued_names`: protect-set
overlay, zero-hit policy gate, residual sweep, masked rendering.  `noPHits`
is the `AUDIT_GLUED_COVERAGE_NO_P_HITS` policy flag. -/
def analyzeGluedName (chunks : List (List Char))
    (ms : List (String × (List Char → Nat → Option Nat)))
    (noPHits : Bool) (name : List Char) : GluedResult :=
  if (overlayHits chunks name).isEmpty && !noPHits then
    { protected_hits := overlayHits chunks name, glued_explained := false,
      coverage_sequence := [], coverage_fail_offset := -1, glued_masked_string := none }
  else
    { protected_hits := overlayHits chunks name,
      glued_explained := (sweepLoop ms name (overlayHits chunks name) 0 [] (name.length + 1)).1,
      coverage_sequence := (sweepLoop ms name (overlayHits chunks name) 0 [] (name.length + 1)).2.2,
      coverage_fail_offset := (sweepLoop ms name (overlayHits chunks name) 0 [] (name.length + 1)).2.1,
      glued_masked_string :=
        if (sweepLoop ms name (overlayHits chunks name) 0 [] (name.length + 1)).1 then
          some (renderMasked name
            (sweepLoop ms name (overlayHits chunks name) 0 [] (name.length + 1)).2.2)
        else none }

/-- AuditPhaseOne line 190: `is_glued = '-' not in name and '_' not in name`. -/
def isGluedName (s : List Char) : Bool := !(s.contains '-') && !(s.contains '_')

/-!  Phase-one masking cascade (AuditPhaseOne._apply_masks_to_row).  The six
`re.sub` passes are modelled by `subScan`, a left-to-right scanner whose
matchers see the character immediately before the scan position (all the
source's lookbehinds inspect exactly one character) and the remaining suffix.
Each matcher returns the number of characters consumed by a match anchored at
the scan position. -/

/-- Lookbehind `(?<![A-Za-z0-9])` / `(?:(?<=^)|(?<=[^A-Za-z0-9]))` given the
character (if any) immediately before the scan position. -/
def boundaryPrevO (prev : Option Char) : Bool :=
  match prev with
  | none => true
  | some c => !(isAlnumA c)

/-- Lookahead `(?:(?=$)|(?=[^A-Za-z0-9]))` after consuming `k` characters of
the suffix. -/
def afterOkSfx (sfx : List Char) (k : Nat) : Bool :=
  match (sfx.drop k).head? with
  | none => true
  | some c => !(isAlnumA c)

/-- Case-insensitive prefix test on a suffix. -/
def ciStartsWith (t sfx : List Char) : Bool :=
  decide (t.length ≤ sfx.length) && (List.zip t sfx).all (fun p => lowEq p.1 p.2)

/-- AuditPhaseOne._compile_guid_regex anchored at the scan position: dashed
8-4-4-4-12 GUID or bare 32-hex run, between non-alphanumeric boundaries. -/
def guidMatchP1 (prev : Option Char) (sfx : List Char) : Option Nat :=
  if !boundaryPrevO prev then none
  else if dashedGuidAt sfx 0 && afterOkSfx sfx 36 then some 36
  else if hexBlockAt sfx 0 32 && afterOkSfx sfx 32 then some 32
  else none

/-- AuditPhaseOne._compile_hex_regex: the alternation
`(?:[a-f0-9]*[a-f]){2,}[a-f0-9]*|[a-f0-9]{7,}` wrapped in the boundary-aware
term format.  Because the pattern consumes only hex characters and the
trailing boundary forbids an alphanumeric successor, a match is exactly the
maximal hex run at the scan position, provided it ends at a boundary and
either contains at least two hex letters or has length at least 7. -/
def hexMatchP1 (prev : Option Char) (sfx : List Char) : Option Nat :=
  if !boundaryPrevO prev then none
  else
    let k := (sfx.takeWhile isHexA).length
    if decide (1 ≤ k) && afterOkSfx sfx k &&
        (decide (2 ≤ (sfx.take k).countP isHexLetterA) || decide (7 ≤ k)) then some k
    else none

/-- AuditPhaseOne._compile_tech_regex:
`(?<![A-Za-z0-9])(?:...)(?=$|[^A-Za-z0-9]|\d)` — TECH terms may additionally
be followed directly by a digit.  Alternatives are tried in list order. -/
def techMatchP1 (terms : List (List Char)) (prev : Option Char) (sfx : List Char) : Option Nat :=
  if !boundaryPrevO prev then none
  else
    terms.findSome? (fun t =>
      let la :=
        match (sfx.drop t.length).head? with
        | none => true
        | some c => !(isAlnumA c) || isDigitA c
      if ciStartsWith t sfx && la then some t.length else none)

/-- AuditPhaseOne._compile_term_regex (ENV and REG passes): boundary-aware
term alternation, alternatives tried in list order. -/
def termMatchP1 (terms : List (List Char)) (prev : Option Char) (sfx : List Char) : Option Nat :=
  if !boundaryPrevO prev then none
  else
    terms.findSome? (fun t =>
      if ciStartsWith t sfx && afterOkSfx sfx t.length then some t.length else none)

/-- AuditPhaseOne._compile_numeric_regex: a maximal digit run between
non-alphanumeric boundaries. -/
def numMatchP1 (prev : Option Char) (sfx : List Char) : Option Nat :=
  if !boundaryPrevO prev then none
  else
    let k := (sfx.takeWhile isDigitA).length
    if decide (1 ≤ k) && afterOkSfx sfx k then some k else none

/-- One `re.sub` pass: scan left to right over the input of this pass; at each
position ask the matcher for a match anchored there; on a match emit the
placeholder, count the hit and the consumed length, and resume after the
match (the resumed lookbehind sees the last consumed character of the
original input, as Python's does); otherwise copy one character.  Returns
(output, hits, chars removed).  Fuel `s.length` suffices: every step consumes
at least one character (the source patterns never match empty). -/
def subScan (m : Option Char → List Char → Option Nat) (ph : List Char)
    (prev : Option Char) (s : List Char) (fuel : Nat) : List Char × Nat × Nat :=
  match fuel with
  | 0 => (s, 0, 0)
  | fuel + 1 =>
    match s with
    | [] => ([], 0, 0)
    | c :: rest =>
      match m prev (c :: rest) with
      | some k =>
        if 1 ≤ k then
          let consumed := (c :: rest).take k
          let out := subScan m ph consumed.getLast? ((c :: rest).drop k) fuel
          (ph ++ out.1, out.2.1 + 1, out.2.2 + k)
        else
          let out := subScan m ph (some c) rest fuel
          (c :: out.1, out.2.1, out.2.2)
      | none =>
        let out := subScan m ph (some c) rest fuel
        (c :: out.1, out.2.1, out.2.2)

/-- AuditConfig.PLACEHOLDERS, in the source dictionary order. -/
def phGUID : List Char := "⟂GUID⟂".data

/-- Placeholder for the TECH class. -/
def phTECH : List Char := "⟂TECH⟂".data

/-- Placeholder for the ENV class. -/
def phENV : List Char := "⟂ENV⟂".data

/-- Placeholder for the REG class. -/
def phREG : List Char := "⟂REG⟂".data

/-- Placeholder for the NUM class. -/
def phNUM : List Char := "⟂NUM⟂".data

/-- Placeholder for the HEX class. -/
def phHEX : List Char := "⟂HEX⟂".data

/-- The placeholder values in AuditConfig.PLACEHOLDERS dictionary order
(GUID, TECH, ENV, REG, NUM, HEX), the order used when deriving the residual. -/
def placeholderValues : List (List Char) := [phGUID, phTECH, phENV, phREG, phNUM, phHEX]

/-- Result of the six-pass cascade: the masked name plus per-class hit and
removed-character counts. -/
structure MaskOut where
  masked : List Char
  hits : List Nat
  removed : List Nat
deriving DecidableEq

/-- The six-pass cascade of `_apply_masks_to_row` in its fixed order
GUID → HEX → TECH → ENV → REG → NUM; each pass scans the output of the
previous one.  Term lists are passed the way the source passes them
(sorted by length descending). -/
def applyMasks (tech env reg : List (List Char)) (name : List Char) : MaskOut :=
  let p1 := subScan guidMatchP1 phGUID none name name.length
  let p2 := subScan hexMatchP1 phHEX none p1.1 p1.1.length
  let p3 := subScan (techMatchP1 tech) phTECH none p2.1 p2.1.length
  let p4 := subScan (termMatchP1 env) phENV none p3.1 p3.1.length
  let p5 := subScan (termMatchP1 reg) phREG none p4.1 p4.1.length
  let p6 := subScan numMatchP1 phNUM none p5.1 p5.1.length
  { masked := p6.1,
    hits := [p1.2.1, p2.2.1, p3.2.1, p4.2.1, p5.2.1, p6.2.1],
    removed := [p1.2.2, p2.2.2, p3.2.2, p4.2.2, p5.2.2, p6.2.2] }

/-- `pct_removed = removed_chars / max(1, orig_len)` of `_apply_masks_to_row`. -/
def pctRemoved (tech env reg : List (List Char)) (name : List Char) : ℚ :=
  ((applyMasks tech env reg name).removed.sum : ℚ) / (max 1 name.length : ℚ)

/-- One `str.replace(pat, '')` pass (case-sensitive, left-to-right,
non-overlapping), used to strip placeholders from the masked name. -/
def replaceAllSub (pat : List Char) (s : List Char) (fuel : Nat) : List Char :=
  match fuel with
  | 0 => s
  | fuel + 1 =>
    match s with
    | [] => []
    | c :: rest =>
      if decide (1 ≤ pat.length) && (s.take pat.length == pat) then
        replaceAllSub pat (s.drop pat.length) fuel
      else c :: replaceAllSub pat rest fuel

/-- Remove every placeholder occurrence from the masked name, iterating the
placeholder dictionary in source order. -/
def removePlaceholders (s : List Char) : List Char :=
  placeholderValues.foldl (fun acc p => replaceAllSub p acc acc.length) s

/-- The delimiter class `[-_.:/]` of RegularExpressions.DELIMITERS_REGEX_PATTERN. -/
def isDelimA (c : Char) : Bool :=
  c == '-' || c == '_' || c == '.' || c == ':' || c == '/'

/-- `re.sub('[-_.:/]+', '-', s)`: each maximal delimiter run collapses to a
single dash. -/
def collapseDelims (s : List Char) : List Char :=
  (List.range s.length).filterMap (fun i =>
    let c := s.getD i ' '
    if isDelimA c then
      if decide (1 ≤ i) && isDelimA (s.getD (i - 1) ' ') then none else some '-'
    else some c)

/-- `str.strip('-_')`. -/
def stripDU (s : List Char) : List Char :=
  ((s.dropWhile (fun c => c == '-' || c == '_')).reverse.dropWhile
    (fun c => c == '-' || c == '_')).reverse

/-- The residual preview of `_apply_masks_to_row`: placeholders removed,
delimiter runs collapsed, leading/trailing dash/underscore stripped. -/
def residualOf (tech env reg : List (List Char)) (name : List Char) : List Char :=
  stripDU (collapseDelims (removePlaceholders (applyMasks tech env reg name).masked))

/-- `_calculate_shannon_entropy`: `-Σ p(c)·log2 p(c)` over the character
frequencies of `s`; the empty string has entropy 0 (the sum over no
characters).  Real-valued, mirroring the mathematical content of the
floating-point source. -/
noncomputable def shannonEntropy (s : List Char) : ℝ :=
  -((s.dedup.map (fun c =>
      ((s.count c : ℝ) / (s.length : ℝ)) * Real.logb 2 ((s.count c : ℝ) / (s.length : ℝ)))).sum)

/-!  Protect-set display-form selection (AuditPhaseTwo._build_protect_set,
lines 98-107).  `Counter` frequencies are modelled by `List.count` over the
raw case-variant list; `sorted(tied)[0]` is the minimum string. -/

/-- Python string comparison `<`: lexicographic on code points.  (Defined on
character lists; `String` comparison in Lean does not evaluate in the kernel.) -/
def listLt : List Char → List Char → Bool
  | [], [] => false
  | [], _ :: _ => true
  | _ :: _, [] => false
  | a :: as, b :: bs =>
    if a.toNat < b.toNat then true
    else if b.toNat < a.toNat then false
    else listLt as bs

/-- Python `str.islower()` on ASCII strings: at least one cased (letter)
character and no uppercase one. -/
def pyIsLower (s : List Char) : Bool :=
  s.any isLetterA && s.all (fun c => !('A' ≤ c && c ≤ 'Z'))

/-- Python `str.istitle()` on ASCII strings: at least one letter; every
uppercase letter follows a non-letter (or starts the string), every lowercase
letter follows a letter. -/
def pyIsTitle (s : List Char) : Bool :=
  s.any isLetterA &&
    (List.range s.length).all (fun k =>
      let c := s.getD k ' '
      if 'A' ≤ c && c ≤ 'Z' then k == 0 || !(isLetterA (s.getD (k - 1) ' '))
      else if 'a' ≤ c && c ≤ 'z' then decide (1 ≤ k) && isLetterA (s.getD (k - 1) ' ')
      else true)

/-- `max(case_counts.values())`: the largest multiplicity among the raw case
variants. -/
def maxFreq (vs : List (List Char)) : Nat :=
  (vs.map (fun v => vs.count v)).foldl Nat.max 0

/-- `tied_variants`: the distinct variants attaining the maximal frequency. -/
def tiedVariants (vs : List (List Char)) : List (List Char) :=
  vs.dedup.filter (fun v => vs.count v == maxFreq vs)

/-- `sorted(l)[0]` for a list of Python strings: its lexicographic minimum,
realised as a fold that keeps the earliest minimal element (junk value `[]`
on the empty list, which the source never reaches). -/
def minVariant (l : List (List Char)) : List Char :=
  match l with
  | [] => []
  | h :: t => t.foldl (fun best x => if listLt x best then x else best) h

/-- The display-form selection of `_build_protect_set`: most frequent raw case
variant; among frequency ties prefer the smallest all-lowercase variant, else
the smallest all-titlecase variant, else the smallest variant overall. -/
def displayForm (vs : List (List Char)) : List Char :=
  if (tiedVariants vs).any pyIsLower then
    minVariant ((tiedVariants vs).filter pyIsLower)
  else if (tiedVariants vs).any pyIsTitle then
    minVariant ((tiedVariants vs).filter pyIsTitle)
  else minVariant (tiedVariants vs)

/-!  Entity-name similarity clusterer (EntityMerger/EntityNameSimilarity.py). -/

/-- SimilarityConfig.RECIPROCAL_TOP_K. -/
def RECIPROCAL_TOP_K : Nat := 5

/-- The `neighbors` accumulation of `_find_reciprocal_topk_links` (lines
50-58): iterate the upper triangle of the similarity matrix in row-major
order ((0,1), (0,2), ..., (1,2), ...); every pair at or above the related
threshold appends a directed neighbor entry on both endpoints.  The resulting
per-node list is ordered by the partner's index, not by similarity. -/
def neighborsOf (n : Nat) (θ : ℚ) (sim : Nat → Nat → ℚ) (i : Nat) : List (Nat × ℚ) :=
  ((List.range n).flatMap (fun a =>
      ((List.range n).filter (fun b => decide (a < b))).map (fun b => (a, b)))).foldl
    (fun acc p =>
      if θ ≤ sim p.1 p.2 then
        if p.1 == i then acc ++ [(p.2, sim p.1 p.2)]
        else if p.2 == i then acc ++ [(p.1, sim p.1 p.2)]
        else acc
      else acc) []

/-- The retention step `topk[i] = lst[:RECIPROCAL_TOP_K]` of
`_find_reciprocal_topk_links` (line 63): the first `K` entries of the
insertion-ordered neighbor list. -/
def topkNeighbors (n : Nat) (θ : ℚ) (K : Nat) (sim : Nat → Nat → ℚ) (i : Nat) :
    List (Nat × ℚ) :=
  (neighborsOf n θ sim i).take K

/-- Degree of node `i` in the group graph, given the kept edge list (one entry
per unordered pair, as `_find_reciprocal_topk_links` deduplicates). -/
def degOf (edges : List (Nat × Nat × ℚ)) (i : Nat) : Nat :=
  (edges.filter (fun e => e.1 == i || e.2.1 == i)).length

/-- Average incident similarity of node `i`
(`np.mean([...]) if G.degree(i) > 0 else 0.0`). -/
def avgOf (edges : List (Nat × Nat × ℚ)) (i : Nat) : ℚ :=
  if degOf edges i == 0 then 0
  else ((edges.filter (fun e => e.1 == i || e.2.1 == i)).map (fun e => e.2.2)).sum /
    (degOf edges i : ℚ)

/-- The strict ranking of `_create_groups_from_links` line 107,
`key=lambda i: (-deg[i], -avg_sim[i], self.names[i])`: `x` ranks strictly
before `y` iff it has higher degree, or equal degree and higher average
similarity, or both equal and a lexicographically smaller entity name
(the source compares the raw names, `self.names[i]`). -/
def simKeyLt (deg : Nat → Nat) (avg : Nat → ℚ) (nm : Nat → List Char) (x y : Nat) : Bool :=
  decide (deg y < deg x) ||
    (decide (deg x = deg y) &&
      (decide (avg y < avg x) || (decide (avg x = avg y) && listLt (nm x) (nm y))))

/-- `sorted(comp, key=...)[0]`: the first element of the stable sort, i.e. the
earliest member of `comp` that no other member strictly out-ranks. -/
def canonicalIdx (deg : Nat → Nat) (avg : Nat → ℚ) (nm : Nat → List Char)
    (comp : List Nat) : Nat :=
  match comp with
  | [] => 0
  | h :: t => t.foldl (fun best x => if simKeyLt deg avg nm x best then x else best) h

/-- The normalization the specification prescribes for the canonical
tie-break (EntityNameSimilarity._normalize: NFKC, lowercase, strip).  NFKC is
the identity on the ASCII names considered, so it is lowercasing plus
whitespace stripping.  This definition follows the specification's words, for
comparison with the source's raw-name tie-break. -/
def specNormalize (s : List Char) : List Char :=
  (((s.map Char.toLower).dropWhile Char.isWhitespace).reverse.dropWhile
    Char.isWhitespace).reverse

/-- The candidate list built at offset `i` of the coverage sweep's inner loop:
each class paired with the length of its match anchored at `i`, in precedence
order. -/
def sweepCands (tech env reg : List (List Char)) (name : List Char) (i : Nat) :
    List (String × Option Nat) :=
  (sweepMatchers tech env reg).map (fun cm => (cm.1, (cm.2 name i).map (fun e => e - i)))

/-!  Reference characterisation of the best-match fold: `firstMax` picks the
earliest candidate achieving the maximal match length.  It is proved equal to
`selectBest` and carries the properties the tie-break claim asserts. -/

/-- The earliest candidate of maximal length (structural form used to reason
about `selectBest`). -/
def firstMaxStep (c : String) (l : Nat) : Option (String × Nat) → Option (String × Nat)
  | none => some (c, l)
  | some q => if l < q.2 then some q else some (c, l)

def firstMax : List (String × Option Nat) → Option (String × Nat)
  | [] => none
  | (_, none) :: rest => firstMax rest
  | (c, some l) :: rest => firstMaxStep c l (firstMax rest)

lemma selectBest_go (cands : List (String × Option Nat)) : ∀ c0 l0,
    cands.foldl selectStep (some (c0, l0)) =
      (firstMax cands).elim (some (c0, l0))
        (fun p => if l0 < p.2 then some p else some (c0, l0)) := by
  induction cands with
  | nil => intro c0 l0; rfl
  | cons hd rest ih =>
    intro c0 l0
    obtain ⟨c, mc⟩ := hd
    cases mc with
    | none => simpa [selectStep, firstMax, firstMaxStep] using ih c0 l0
    | some l =>
      by_cases h : l0 < l
      · rw [List.foldl_cons]
        have hs : selectStep (some (c0, l0)) (c, some l) = some (c, l) := by
          simp [selectStep, h]
        rw [hs, ih c l]
        cases hfm : firstMax rest with
        | none => simp [firstMax, firstMaxStep, hfm, h]
        | some p =>
          obtain ⟨c', l'⟩ := p
          by_cases h2 : l < l'
          · simp [firstMax, firstMaxStep, hfm, h2, lt_trans h h2]
          · simp [firstMax, firstMaxStep, hfm, h2, h]
      · rw [List.foldl_cons]
        have hs : selectStep (some (c0, l0)) (c, some l) = some (c0, l0) := by
          simp [selectStep, h]
        rw [hs, ih c0 l0]
        cases hfm : firstMax rest with
        | none => simp [firstMax, firstMaxStep, hfm, h]
        | some p =>
          obtain ⟨c', l'⟩ := p
          by_cases h2 : l < l'
          · simp [firstMax, firstMaxStep, hfm, h2]
          · have h3 : ¬ l0 < l' := by omega
            simp [firstMax, firstMaxStep, hfm, h2, h, h3]

lemma selectBest_eq_firstMax (cands : List (String × Option Nat)) :
    selectBest cands = firstMax cands := by
  induction cands with
  | nil => rfl
  | cons hd rest ih =>
    obtain ⟨c, mc⟩ := hd
    cases mc with
    | none => simpa [selectBest, selectStep, firstMax, firstMaxStep] using ih
    | some l =>
      show List.foldl selectStep (selectStep none (c, some l)) rest = _
      have hs : selectStep none (c, some l) = some (c, l) := rfl
      rw [hs, selectBest_go rest c l]
      cases hfm : firstMax rest with
      | none => simp [firstMax, firstMaxStep, hfm]
      | some p =>
        obtain ⟨c', l'⟩ := p
        by_cases h2 : l < l'
        · simp [firstMax, firstMaxStep, hfm, h2]
        · simp [firstMax, firstMaxStep, hfm, h2]

lemma firstMax_none {cands : List (String × Option Nat)} (h : firstMax cands = none) :
    ∀ p ∈ cands, p.2 = none := by
  induction cands with
  | nil => simp
  | cons hd rest ih =>
    obtain ⟨c, mc⟩ := hd
    cases mc with
    | none =>
      intro p hp
      rcases List.mem_cons.mp hp with h1 | h1
      · rw [h1]
      · exact ih (by simpa [firstMax] using h) p h1
    | some l =>
      exfalso
      rw [firstMax] at h
      cases hfm : firstMax rest <;> simp [hfm, firstMaxStep] at h
      split at h <;> simp_all

lemma firstMax_mem : ∀ {cands : List (String × Option Nat)} {c l},
    firstMax cands = some (c, l) → (c, some l) ∈ cands := by
  intro cands
  induction cands with
  | nil => intro c l h; simp [firstMax] at h
  | cons hd rest ih =>
    intro c l h
    obtain ⟨c0, mc⟩ := hd
    cases mc with
    | none => exact List.mem_cons_of_mem _ (ih (by simpa [firstMax] using h))
    | some l0 =>
      rw [firstMax] at h
      cases hfm : firstMax rest with
      | none =>
        rw [hfm] at h
        simp only [firstMaxStep, Option.some.injEq, Prod.mk.injEq] at h
        exact List.mem_cons.mpr (Or.inl (by rw [h.1, h.2]))
      | some p =>
        obtain ⟨c', l'⟩ := p
        rw [hfm] at h
        simp only [firstMaxStep] at h
        by_cases h2 : l0 < l'
        · rw [if_pos h2] at h
          simp only [Option.some.injEq, Prod.mk.injEq] at h
          exact List.mem_cons_of_mem _ (ih (by rw [hfm, h.1, h.2]))
        · rw [if_neg h2] at h
          simp only [Option.some.injEq, Prod.mk.injEq] at h
          exact List.mem_cons.mpr (Or.inl (by rw [h.1, h.2]))

lemma firstMax_le : ∀ {cands : List (String × Option Nat)} {c l},
    firstMax cands = some (c, l) → ∀ c' l', (c', some l') ∈ cands → l' ≤ l := by
  intro cands
  induction cands with
  | nil => intro c l h; simp [firstMax] at h
  | cons hd rest ih =>
    intro c l h c' l' hmem
    obtain ⟨c0, mc⟩ := hd
    cases mc with
    | none =>
      rcases List.mem_cons.mp hmem with h1 | h1
      · exact absurd (congrArg Prod.snd h1) (by simp)
      · exact ih (by simpa [firstMax] using h) c' l' h1
    | some l0 =>
      rw [firstMax] at h
      cases hfm : firstMax rest with
      | none =>
        rw [hfm] at h
        simp only [firstMaxStep, Option.some.injEq, Prod.mk.injEq] at h
        rcases List.mem_cons.mp hmem with h1 | h1
        · have : l' = l0 := by
            have := congrArg Prod.snd h1
            simpa using this
          omega
        · have := firstMax_none hfm _ h1
          simp at this
      | some p =>
        obtain ⟨c1, l1⟩ := p
        rw [hfm] at h
        simp only [firstMaxStep] at h
        have hrest := ih hfm
        by_cases h2 : l0 < l1
        · rw [if_pos h2] at h
          simp only [Option.some.injEq, Prod.mk.injEq] at h
          rcases List.mem_cons.mp hmem with h1 | h1
          · have : l' = l0 := by
              have := congrArg Prod.snd h1
              simpa using this
            omega
          · have := hrest c' l' h1
            omega
        · rw [if_neg h2] at h
          simp only [Option.some.injEq, Prod.mk.injEq] at h
          rcases List.mem_cons.mp hmem with h1 | h1
          · have : l' = l0 := by
              have := congrArg Prod.snd h1
              simpa using this
            omega
          · have := hrest c' l' h1
            omega

lemma firstMax_isSome : ∀ {cands : List (String × Option Nat)} {c0 l0},
    (c0, some l0) ∈ cands → (firstMax cands).isSome = true := by
  intro cands
  induction cands with
  | nil => intro c0 l0 h; simp at h
  | cons hd rest ih =>
    intro c0 l0 h
    obtain ⟨c, mc⟩ := hd
    cases mc with
    | none =>
      rcases List.mem_cons.mp h with h1 | h1
      · exact absurd (congrArg Prod.snd h1) (by simp)
      · simpa [firstMax] using ih h1
    | some l =>
      rw [firstMax]
      cases hfm : firstMax rest with
      | none => simp [hfm, firstMaxStep]
      | some p => by_cases h2 : l < p.2 <;> simp [hfm, firstMaxStep, h2]

lemma firstMax_first : ∀ {cands : List (String × Option Nat)} {c l},
    firstMax cands = some (c, l) →
    ∃ k, cands.get? k = some (c, some l) ∧
      ∀ k' p, k' < k → cands.get? k' = some p → ∀ l', p.2 = some l' → l' < l := by
  intro cands
  induction cands with
  | nil => intro c l h; simp [firstMax] at h
  | cons hd rest ih =>
    intro c l h
    obtain ⟨c0, mc⟩ := hd
    cases mc with
    | none =>
      obtain ⟨k, hk, hlt⟩ := ih (by simpa [firstMax] using h)
      refine ⟨k + 1, by simpa using hk, ?_⟩
      intro k' p hk' hp l' hl'
      cases k' with
      | zero =>
        simp only [List.get?] at hp
        cases hp
        simp at hl'
      | succ j => exact hlt j p (by omega) (by simpa using hp) l' hl'
    | some l0 =>
      rw [firstMax] at h
      cases hfm : firstMax rest with
      | none =>
        rw [hfm] at h
        simp only [firstMaxStep, Option.some.injEq, Prod.mk.injEq] at h
        refine ⟨0, ?_, ?_⟩
        · simp [h.1, h.2]
        · intro k' p hk'; omega
      | some p =>
        obtain ⟨c1, l1⟩ := p
        rw [hfm] at h
        simp only [firstMaxStep] at h
        by_cases h2 : l0 < l1
        · rw [if_pos h2] at h
          simp only [Option.some.injEq, Prod.mk.injEq] at h
          obtain ⟨hc, hl⟩ := h
          subst hc
          subst hl
          obtain ⟨k, hk, hlt⟩ := ih hfm
          refine ⟨k + 1, by simpa using hk, ?_⟩
          intro k' q hk' hq l' hl'
          cases k' with
          | zero =>
            simp only [List.get?] at hq
            cases hq
            simp only at hl'
            cases hl'
            omega
          | succ j =>
            have := hlt j q (by omega) (by simpa using hq) l' hl'
            omega
        · rw [if_neg h2] at h
          simp only [Option.some.injEq, Prod.mk.injEq] at h
          refine ⟨0, ?_, ?_⟩
          · simp [h.1, h.2]
          · intro k' p hk'; omega

/-- C3.  In the glued-name residual sweep, at every offset where at least one
of the five classes matches, the selected match is a longest one, and among
the candidates achieving that length the selected class is the earliest in
the fixed precedence order GUID > TECH > ENV > REG > NUM (the candidate list
is laid out in exactly that order). -/
theorem sweep_selects_longest_then_precedence (tech env reg : List (List Char))
    (name : List Char) (i : Nat)
    (h : (sweepCands tech env reg name i).any (fun p => p.2.isSome) = true) :
    ∃ c l, selectBest (sweepCands tech env reg name i) = some (c, l) ∧
      (c, some l) ∈ sweepCands tech env reg name i ∧
      (∀ c' l', (c', some l') ∈ sweepCands tech env reg name i → l' ≤ l) ∧
      ∃ k, (sweepCands tech env reg name i).get? k = some (c, some l) ∧
        ∀ k' p, k' < k → (sweepCands tech env reg name i).get? k' = some p →
          ∀ l', p.2 = some l' → l' < l := by
  obtain ⟨p, hp, hps⟩ := List.any_eq_true.mp h
  obtain ⟨c0, mc⟩ := p
  cases mc with
  | none => simp at hps
  | some l0 =>
    have hsome := firstMax_isSome hp
    cases hfm : firstMax (sweepCands tech env reg name i) with
    | none => rw [hfm] at hsome; simp at hsome
    | some q =>
      obtain ⟨c, l⟩ := q
      exact ⟨c, l, by rw [selectBest_eq_firstMax, hfm], firstMax_mem hfm,
        firstMax_le hfm, firstMax_first hfm⟩

/-- Witness for C3: on the name "prod" with ENV vocabulary {"prod"} the ENV
class matches at offset 0, so the hypothesis holds and the selection facts
follow at a concrete input. -/
theorem sweep_selects_longest_then_precedence_witness :
    ∃ c l, selectBest (sweepCands ["sql".data] ["prod".data] [] "prod".data 0) = some (c, l) ∧
      (c, some l) ∈ sweepCands ["sql".data] ["prod".data] [] "prod".data 0 ∧
      (∀ c' l', (c', some l') ∈ sweepCands ["sql".data] ["prod".data] [] "prod".data 0 → l' ≤ l) ∧
      ∃ k, (sweepCands ["sql".data] ["prod".data] [] "prod".data 0).get? k = some (c, some l) ∧
        ∀ k' p, k' < k → (sweepCands ["sql".data] ["prod".data] [] "prod".data 0).get? k' = some p →
          ∀ l', p.2 = some l' → l' < l :=
  sweep_selects_longest_then_precedence ["sql".data] ["prod".data] [] "prod".data 0 (by decide)

/-!  Invariants of the protect-set overlay and the coverage sweep (C6, C7). -/

/-- Two hit spans share no character position. -/
def hitsDisjoint (a b : PHit) : Prop := ∀ p : Nat, ¬(inHit a p = true ∧ inHit b p = true)

lemma scanChunk_disjoint (name chunk : List Char) :
    ∀ fuel i acc, acc.Pairwise hitsDisjoint →
      (scanChunk name chunk acc i fuel).Pairwise hitsDisjoint := by
  intro fuel
  induction fuel with
  | zero => intro i acc hacc; exact hacc
  | succ fuel ih =>
    intro i acc hacc
    rw [scanChunk]
    by_cases hc : ciMatchAt chunk name i = true
    · rw [if_pos hc]
      by_cases hfree :
          ((List.range' i chunk.length).all (fun p => !(coveredByHits acc p))) = true
      · rw [if_pos hfree]
        apply ih
        rw [List.pairwise_append]
        refine ⟨hacc, List.pairwise_singleton _ _, ?_⟩
        intro a ha b hb
        rw [List.mem_singleton] at hb
        subst hb
        intro p hp
        obtain ⟨hpa, hpb⟩ := hp
        have hmem : p ∈ List.range' i chunk.length := by
          rw [List.mem_range'_1]
          simpa [inHit] using hpb
        have := List.all_eq_true.mp hfree p hmem
        simp only [Bool.not_eq_true'] at this
        have : coveredByHits acc p = true := List.any_eq_true.mpr ⟨a, ha, hpa⟩
        simp_all
      · rw [if_neg hfree]
        exact ih _ _ hacc
    · rw [if_neg hc]
      by_cases hl : i < name.length
      · rw [if_pos hl]; exact ih _ _ hacc
      · rw [if_neg hl]; exact hacc

lemma overlayHits_disjoint (chunks : List (List Char)) (name : List Char) :
    (overlayHits chunks name).Pairwise hitsDisjoint := by
  have main : ∀ (cs : List (List Char)) (acc : List PHit), acc.Pairwise hitsDisjoint →
      (cs.foldl (fun acc c => scanChunk name c acc 0 (name.length + 1)) acc).Pairwise
        hitsDisjoint := by
    intro cs
    induction cs with
    | nil => intro acc hacc; exact hacc
    | cons c cs ih =>
      intro acc hacc
      exact ih _ (scanChunk_disjoint name c _ _ _ hacc)
  exact main chunks [] List.Pairwise.nil

lemma sweepLoop_segs (ms : List (String × (List Char → Nat → Option Nat)))
    (name : List Char) (hits : List PHit) :
    ∀ fuel i segs, segs.Pairwise (fun a b => a.stop ≤ b.start) →
      (∀ g ∈ segs, g.stop ≤ i) → (∀ g ∈ segs, g.start < g.stop) →
      ((sweepLoop ms name hits i segs fuel).2.2.Pairwise (fun a b => a.stop ≤ b.start) ∧
        ∀ g ∈ (sweepLoop ms name hits i segs fuel).2.2, g.start < g.stop) := by
  intro fuel
  induction fuel with
  | zero => intro i segs h1 h2 h3; exact ⟨h1, h3⟩
  | succ fuel ih =>
    intro i segs h1 h2 h3
    rw [sweepLoop]
    by_cases hlen : i < name.length
    · rw [if_pos hlen]
      by_cases hcov : (coveredPos hits segs i || (name.getD i ' ').isWhitespace) = true
      · rw [if_pos hcov]
        exact ih (i + 1) segs h1 (fun g hg => Nat.le_succ_of_le (h2 g hg)) h3
      · rw [if_neg hcov]
        cases hsel : selectBest (ms.map (fun cm => (cm.1, (cm.2 name i).map (fun e => e - i)))) with
        | none => exact ⟨h1, h3⟩
        | some cl =>
          dsimp only
          by_cases hone : 1 ≤ cl.2
          · rw [if_pos hone]
            apply ih
            · rw [List.pairwise_append]
              refine ⟨h1, List.pairwise_singleton _ _, ?_⟩
              intro a ha b hb
              rw [List.mem_singleton] at hb
              subst hb
              exact h2 a ha
            · intro g hg
              rcases List.mem_append.mp hg with hg | hg
              · exact le_trans (h2 g hg) (Nat.le_add_right i cl.2)
              · rw [List.mem_singleton] at hg
                subst hg
                exact le_refl _
            · intro g hg
              rcases List.mem_append.mp hg with hg | hg
              · exact h3 g hg
              · rw [List.mem_singleton] at hg
                subst hg
                simpa using hone
          · rw [if_neg hone]; exact ⟨h1, h3⟩
    · rw [if_neg hlen]; exact ⟨h1, h3⟩

/-- C6 (amended).  For every analyzed glued name the accepted protect-set hits
are pairwise non-overlapping over the name's positions, and the class segments
of the coverage sequence are non-degenerate, pairwise non-overlapping and
ordered by increasing start offset (each segment ends no later than the next
one starts).  The hits themselves are recorded in processing order (longest
chunk first), not by start offset, and a class segment may overlap protect-set
hit spans — see the counterexample. -/
theorem hits_disjoint_seq_ordered (chunks : List (List Char))
    (ms : List (String × (List Char → Nat → Option Nat))) (noP : Bool) (name : List Char) :
    (analyzeGluedName chunks ms noP name).protected_hits.Pairwise hitsDisjoint ∧
    (analyzeGluedName chunks ms noP name).coverage_sequence.Pairwise
      (fun a b => a.stop ≤ b.start) ∧
    ∀ g ∈ (analyzeGluedName chunks ms noP name).coverage_sequence, g.start < g.stop := by
  unfold analyzeGluedName
  by_cases hb : ((overlayHits chunks name).isEmpty && !noP) = true
  · rw [if_pos hb]
    exact ⟨overlayHits_disjoint chunks name, List.Pairwise.nil, by simp⟩
  · rw [if_neg hb]
    refine ⟨overlayHits_disjoint chunks name, ?_, ?_⟩
    · exact (sweepLoop_segs ms name _ _ 0 [] List.Pairwise.nil (by simp) (by simp)).1
    · exact (sweepLoop_segs ms name _ _ 0 [] List.Pairwise.nil (by simp) (by simp)).2

/-- C6 counterexample.  Two concrete sweeps refute the claim as stated:
with protect chunks "abcd", "xyz" (processed longest-first) on the glued name
"xyzabcd", the recorded hits start at offsets 3 then 0 — not ordered by
increasing start; and with chunk "abc" and ENV vocabulary {"xabcx"} on the
name "xabcx", the accepted ENV segment [0,5) overlaps the protect hit [1,4)
at position 1, so the union of the two lists is not pairwise
non-overlapping. -/
theorem spans_ordering_overlap_counterexample :
    ((analyzeGluedName ["abcd".data, "xyz".data] (sweepMatchers [] [] []) true
        "xyzabcd".data).protected_hits.map PHit.start = [3, 0]) ∧
    ¬(3 : Nat) ≤ 0 ∧
    (analyzeGluedName ["abc".data] (sweepMatchers [] ["xabcx".data] []) true
        "xabcx".data).protected_hits = [⟨"abc".data, 1, 4⟩] ∧
    (analyzeGluedName ["abc".data] (sweepMatchers [] ["xabcx".data] []) true
        "xabcx".data).coverage_sequence = [⟨"ENV", 0, 5⟩] ∧
    inHit ⟨"abc".data, 1, 4⟩ 1 = true ∧ inSeg ⟨"ENV", 0, 5⟩ 1 = true := by
  decide

lemma sweepLoop_fail (ms : List (String × (List Char → Nat → Option Nat)))
    (name : List Char) (hits : List PHit) :
    ∀ fuel i segs,
      ((sweepLoop ms name hits i segs fuel).1 = true →
        (sweepLoop ms name hits i segs fuel).2.1 = -1) ∧
      (0 ≤ (sweepLoop ms name hits i segs fuel).2.1 →
        (sweepLoop ms name hits i segs fuel).1 = false ∧
        (sweepLoop ms name hits i segs fuel).2.1 < (name.length : Int)) := by
  intro fuel
  induction fuel with
  | zero =>
    intro i segs
    exact ⟨fun _ => rfl, fun hge => absurd hge (by norm_num [sweepLoop])⟩
  | succ fuel ih =>
    intro i segs
    rw [sweepLoop]
    by_cases hlen : i < name.length
    · rw [if_pos hlen]
      by_cases hcov : (coveredPos hits segs i || (name.getD i ' ').isWhitespace) = true
      · rw [if_pos hcov]; exact ih (i + 1) segs
      · rw [if_neg hcov]
        cases hsel : selectBest (ms.map (fun cm => (cm.1, (cm.2 name i).map (fun e => e - i)))) with
        | none =>
          dsimp only
          refine ⟨fun ht => by simp at ht, fun _ => ⟨rfl, ?_⟩⟩
          exact Int.ofNat_lt.mpr hlen
        | some cl =>
          dsimp only
          by_cases hone : 1 ≤ cl.2
          · rw [if_pos hone]; exact ih (i + cl.2) _
          · rw [if_neg hone]
            exact ⟨fun _ => rfl, fun hge => absurd hge (by norm_num)⟩
    · rw [if_neg hlen]
      exact ⟨fun _ => rfl, fun hge => absurd hge (by norm_num)⟩

/-- C7 (amended).  For every analyzed glued name, a fully explained verdict
carries the sentinel `coverage_fail_offset = -1` (the source records `-1`,
not a null), and a non-negative failure offset is recorded only when the
sweep stopped strictly before the end of the name — in that case the name is
reported unexplained and the offset lies inside the name. -/
theorem fail_offset_sentinel_semantics (chunks : List (List Char))
    (ms : List (String × (List Char → Nat → Option Nat))) (noP : Bool) (name : List Char) :
    ((analyzeGluedName chunks ms noP name).glued_explained = true →
      (analyzeGluedName chunks ms noP name).coverage_fail_offset = -1) ∧
    (0 ≤ (analyzeGluedName chunks ms noP name).coverage_fail_offset →
      (analyzeGluedName chunks ms noP name).glued_explained = false ∧
      (analyzeGluedName chunks ms noP name).coverage_fail_offset < (name.length : Int)) := by
  unfold analyzeGluedName
  by_cases hb : ((overlayHits chunks name).isEmpty && !noP) = true
  · rw [if_pos hb]
    exact ⟨fun ht => by simp at ht, fun hge => absurd hge (by norm_num)⟩
  · rw [if_neg hb]
    exact sweepLoop_fail ms name _ (name.length + 1) 0 []

/-- C7 counterexample.  A concrete fully-explained glued name: the protect
chunk "abc" covers the whole name "abc", the verdict is explained, and the
record carries the concrete integer `-1` in `coverage_fail_offset` — the
field is always present with a sentinel value, never null/absent. -/
theorem fail_offset_minus_one_when_explained :
    (analyzeGluedName ["abc".data] (sweepMatchers [] [] []) true "abc".data).glued_explained
        = true ∧
    (analyzeGluedName ["abc".data] (sweepMatchers [] [] []) true "abc".data).coverage_fail_offset
        = -1 := by
  decide

/-!  C1: the specification's coverage example on "prod01sqlbackup". -/

/-- The coverage analysis of "prod01sqlbackup" with TECH = {"sql"},
ENV = {"prod"}, REG = ∅, empty protect set, zero-hit policy enabled. -/
def c1Result : GluedResult :=
  analyzeGluedName [] (sweepMatchers ["sql".data] ["prod".data] []) true
    "prod01sqlbackup".data

/-- C1 counterexample.  The claim asserts a coverage sequence
"prod"(ENV)/"01"(NUM)/"sql"(TECH) with failure offset 9; the code produces an
empty coverage sequence failing at offset 0, because the boundary-aware ENV
matcher rejects "prod" when followed by the digit '0' (and TECH rejects "sql"
when followed by the letter 'b'). -/
theorem prod01sqlbackup_spec_example_fails :
    c1Result.glued_explained = false ∧ c1Result.coverage_sequence = [] ∧
    c1Result.coverage_fail_offset = 0 ∧ c1Result.coverage_fail_offset ≠ 9 := by
  decide

/-- C1 (amended).  On "prod01sqlbackup" with ENV = {"prod"}, TECH = {"sql"},
empty protect set and the zero-hit policy enabled, no class matches at offset
0 — in particular the ENV matcher rejects "prod" because its trailing
boundary `(?![A-Za-z0-9])` sees the digit '0', and TECH rejects "sql" at
offset 6 because of the letter 'b' — so the sweep stops immediately:
glued_explained = false, coverage_fail_offset = 0, empty protected_hits and
coverage_sequence, no masked rendering. -/
theorem prod01sqlbackup_sweep_fails_at_zero :
    c1Result = { protected_hits := [], glued_explained := false, coverage_sequence := [],
                 coverage_fail_offset := 0, glued_masked_string := none } ∧
    termMatchAtP2 ["prod".data] "prod01sqlbackup".data 0 = none ∧
    techMatchAtP2 ["sql".data] "prod01sqlbackup".data 6 = none := by
  decide

/-!  C10: the empty name is vacuously explained. -/

lemma scanChunk_nil_name (chunk : List Char) (hne : chunk ≠ []) :
    ∀ fuel i acc, scanChunk [] chunk acc i fuel = acc := by
  intro fuel i acc
  cases fuel with
  | zero => rfl
  | succ fuel =>
    have hlen : 0 < chunk.length := List.length_pos.mpr hne
    rw [scanChunk]
    have hci : ciMatchAt chunk [] i = false := by
      unfold ciMatchAt
      rw [List.length_nil]
      have hd : decide (i + chunk.length ≤ 0) = false := decide_eq_false (by omega)
      rw [hd, Bool.false_and]
    rw [hci]
    simp

lemma overlayHits_nil_name (chunks : List (List Char)) (h : ∀ c ∈ chunks, c ≠ []) :
    overlayHits chunks [] = [] := by
  unfold overlayHits
  have main : ∀ (cs : List (List Char)), (∀ c ∈ cs, c ≠ []) → ∀ acc : List PHit,
      cs.foldl (fun acc c => scanChunk ([] : List Char) c acc 0
        (([] : List Char).length + 1)) acc = acc := by
    intro cs
    induction cs with
    | nil => intro _ acc; rfl
    | cons c cs ih =>
      intro hcs acc
      rw [List.foldl_cons, scanChunk_nil_name c (hcs c (List.mem_cons_self c cs))]
      exact ih (fun d hd => hcs d (List.mem_cons_of_mem c hd)) acc
  exact main chunks h []

/-- C10.  With the zero-hit policy enabled (the configured value of
AUDIT_GLUED_COVERAGE_NO_P_HITS), the empty-string name is classified glued
(it contains neither '-' nor '_') and is vacuously judged fully explained:
no protect-set hits (for any protect set of nonempty chunks), empty coverage
sequence, sentinel failure offset, and an empty masked rendering. -/
theorem empty_name_vacuously_explained (chunks : List (List Char))
    (ms : List (String × (List Char → Nat → Option Nat)))
    (h : ∀ c ∈ chunks, c ≠ []) :
    isGluedName "".data = true ∧
    analyzeGluedName chunks ms AUDIT_GLUED_COVERAGE_NO_P_HITS [] =
      { protected_hits := [], glued_explained := true, coverage_sequence := [],
        coverage_fail_offset := -1, glued_masked_string := some "" } := by
  refine ⟨rfl, ?_⟩
  have hov := overlayHits_nil_name chunks h
  unfold analyzeGluedName
  rw [hov]
  simp [AUDIT_GLUED_COVERAGE_NO_P_HITS, sweepLoop, renderMasked, String.join]

/-- Witness for C10 at a concrete protect set. -/
theorem empty_name_vacuously_explained_witness :
    isGluedName "".data = true ∧
    analyzeGluedName ["abc".data] (sweepMatchers [] [] []) AUDIT_GLUED_COVERAGE_NO_P_HITS [] =
      { protected_hits := [], glued_explained := true, coverage_sequence := [],
        coverage_fail_offset := -1, glued_masked_string := some "" } :=
  empty_name_vacuously_explained ["abc".data] (sweepMatchers [] [] []) (by decide)

/-!  C4: idempotence of the masking cascade. -/

/-- C4 counterexample.  The cascade is not idempotent: on "sql0aa" with
TECH = {"sql"} (ENV, REG empty) the first run yields "⟂TECH⟂0aa" — the TECH
match may be followed by a digit, splitting the alphanumeric run — and the
second run's HEX pass then matches the now placeholder-delimited run "0aa"
(two hex letters), yielding "⟂TECH⟂⟂HEX⟂" ≠ "⟂TECH⟂0aa". -/
theorem masking_not_idempotent_sql0aa :
    (applyMasks ["sql".data] [] [] (applyMasks ["sql".data] [] [] "sql0aa".data).masked).masked
      ≠ (applyMasks ["sql".data] [] [] "sql0aa".data).masked ∧
    (applyMasks ["sql".data] [] [] "sql0aa".data).masked = "⟂TECH⟂0aa".data ∧
    (applyMasks ["sql".data] [] []
        (applyMasks ["sql".data] [] [] "sql0aa".data).masked).masked
      = "⟂TECH⟂⟂HEX⟂".data := by
  decide

/-- C4 (amended).  Masking is not idempotent for every name and catalog (see
the counterexample); what does hold is the placeholder half of the claim for
the pattern classes: no GUID, HEX or NUM matcher matches anywhere inside any
placeholder token (their label letters are not hex runs and contain no
digits), even with the most permissive left boundary.  Only the vocabulary
classes (TECH/ENV/REG) can match inside a placeholder, and only when a
catalog term equals a placeholder label. -/
theorem guid_hex_num_never_match_placeholders :
    (placeholderValues.all (fun ph =>
      (List.range (ph.length + 1)).all (fun i =>
        (guidMatchP1 none (ph.drop i)).isNone &&
        (hexMatchP1 none (ph.drop i)).isNone &&
        (numMatchP1 none (ph.drop i)).isNone))) = true := by
  decide

/-!  C5: metric bounds. -/

lemma list_sum_nonpos {l : List ℝ} (h : ∀ x ∈ l, x ≤ 0) : l.sum ≤ 0 := by
  induction l with
  | nil => simp
  | cons a t ih =>
    rw [List.sum_cons]
    have ha := h a (List.mem_cons_self a t)
    have ht := ih (fun x hx => h x (List.mem_cons_of_mem a hx))
    linarith

lemma shannonEntropy_nonneg (s : List Char) : 0 ≤ shannonEntropy s := by
  unfold shannonEntropy
  rw [neg_nonneg]
  apply list_sum_nonpos
  intro x hx
  rw [List.mem_map] at hx
  obtain ⟨c, hc, rfl⟩ := hx
  by_cases hs : s = []
  · subst hs; simp at hc
  · have hlen : 0 < s.length := List.length_pos.mpr hs
    have hcnt : 0 < s.count c := List.count_pos_iff.mpr (List.mem_dedup.mp hc)
    have hle : s.count c ≤ s.length := List.count_le_length c s
    have hp0 : 0 ≤ (s.count c : ℝ) / (s.length : ℝ) := by positivity
    have hp1 : (s.count c : ℝ) / (s.length : ℝ) ≤ 1 := by
      rw [div_le_one (by exact_mod_cast hlen)]
      exact_mod_cast hle
    have hlog : Real.logb 2 ((s.count c : ℝ) / (s.length : ℝ)) ≤ 0 :=
      Real.logb_nonpos (by norm_num) hp0 hp1
    calc (s.count c : ℝ) / (s.length : ℝ) * Real.logb 2 ((s.count c : ℝ) / (s.length : ℝ))
        ≤ (s.count c : ℝ) / (s.length : ℝ) * 0 := mul_le_mul_of_nonneg_left hlog hp0
      _ = 0 := mul_zero _

/-- C5 (amended).  For every name and term catalog the masking/metrics pass
satisfies 0 ≤ pct_removed, entropy_orig ≥ 0 and entropy_resid ≥ 0.  The upper
bound pct_removed ≤ 1 claimed by the specification does not hold in general —
see the counterexample, where a vocabulary term matching inside a placeholder
makes the removed-character count exceed the original length. -/
theorem pct_nonneg_entropy_nonneg (tech env reg : List (List Char)) (name : List Char) :
    0 ≤ pctRemoved tech env reg name ∧ 0 ≤ shannonEntropy name ∧
      0 ≤ shannonEntropy (residualOf tech env reg name) := by
  refine ⟨?_, shannonEntropy_nonneg name, shannonEntropy_nonneg _⟩
  unfold pctRemoved
  apply div_nonneg
  · exact_mod_cast Nat.zero_le _
  · exact_mod_cast Nat.zero_le _

/-- C5 counterexample.  With TECH = {"sql"} and ENV = {"tech"} on the name
"sql", the TECH pass removes 3 characters producing "⟂TECH⟂", and the ENV
pass then matches the placeholder label "TECH" (4 more characters removed):
pct_removed = 7/3 > 1. -/
theorem pct_removed_exceeds_one_example :
    ¬(pctRemoved ["sql".data] ["tech".data] [] "sql".data ≤ 1) ∧
    (applyMasks ["sql".data] ["tech".data] [] "sql".data).removed.sum = 7 ∧
    "sql".data.length = 3 := by
  have h1 : (applyMasks ["sql".data] ["tech".data] [] "sql".data).removed.sum = 7 := by
    decide
  have h2 : "sql".data.length = 3 := by decide
  refine ⟨?_, h1, h2⟩
  unfold pctRemoved
  rw [h1, h2]
  norm_num

/-!  Order theory for the Python string comparison and the canonical-selection
key, plus a generic first-minimum fold lemma shared by the canonical
selection (C8) and the display-form minimum (C9). -/

lemma listLt_irrefl : ∀ s : List Char, listLt s s = false := by
  intro s
  induction s with
  | nil => rfl
  | cons a t ih => simp [listLt, ih]

lemma listLt_trans : ∀ (a b c : List Char),
    listLt a b = true → listLt b c = true → listLt a c = true := by
  intro a
  induction a with
  | nil =>
    intro b c hab hbc
    cases b with
    | nil => simp [listLt] at hab
    | cons b0 bs =>
      cases c with
      | nil => simp [listLt] at hbc
      | cons c0 cs => simp [listLt]
  | cons a0 as ih =>
    intro b c hab hbc
    cases b with
    | nil => simp [listLt] at hab
    | cons b0 bs =>
      cases c with
      | nil => simp [listLt] at hbc
      | cons c0 cs =>
        rw [listLt] at hab hbc ⊢
        by_cases h1 : a0.toNat < b0.toNat
        · by_cases h3 : b0.toNat < c0.toNat
          · rw [if_pos (lt_trans h1 h3)]
          · rw [if_neg h3] at hbc
            by_cases h4 : c0.toNat < b0.toNat
            · rw [if_pos h4] at hbc; exact absurd hbc (by simp)
            · rw [if_pos (show a0.toNat < c0.toNat by omega)]
        · rw [if_neg h1] at hab
          by_cases h2 : b0.toNat < a0.toNat
          · rw [if_pos h2] at hab; exact absurd hab (by simp)
          · rw [if_neg h2] at hab
            by_cases h3 : b0.toNat < c0.toNat
            · rw [if_pos (show a0.toNat < c0.toNat by omega)]
            · rw [if_neg h3] at hbc
              by_cases h4 : c0.toNat < b0.toNat
              · rw [if_pos h4] at hbc; exact absurd hbc (by simp)
              · rw [if_neg h4] at hbc
                rw [if_neg (show ¬a0.toNat < c0.toNat by omega),
                  if_neg (show ¬c0.toNat < a0.toNat by omega)]
                exact ih bs cs hab hbc

lemma simKeyLt_irrefl (deg : Nat → Nat) (avg : Nat → ℚ) (nm : Nat → List Char) (x : Nat) :
    simKeyLt deg avg nm x x = false := by
  simp [simKeyLt, listLt_irrefl]

lemma simKeyLt_trans (deg : Nat → Nat) (avg : Nat → ℚ) (nm : Nat → List Char)
    {x y z : Nat} (hxy : simKeyLt deg avg nm x y = true)
    (hyz : simKeyLt deg avg nm y z = true) : simKeyLt deg avg nm x z = true := by
  simp only [simKeyLt, Bool.or_eq_true, Bool.and_eq_true, decide_eq_true_eq] at hxy hyz ⊢
  rcases hxy with h1 | ⟨h2, h3 | ⟨h4, h5⟩⟩ <;>
    rcases hyz with g1 | ⟨g2, g3 | ⟨g4, g5⟩⟩
  · exact Or.inl (by omega)
  · exact Or.inl (by omega)
  · exact Or.inl (by omega)
  · exact Or.inl (by omega)
  · exact Or.inr ⟨by omega, Or.inl (by linarith)⟩
  · exact Or.inr ⟨by omega, Or.inl (by rw [← g4]; exact h3)⟩
  · exact Or.inl (by omega)
  · exact Or.inr ⟨by omega, Or.inl (by rw [h4]; exact g3)⟩
  · exact Or.inr ⟨by omega, Or.inr ⟨by rw [h4, g4], listLt_trans _ _ _ h5 g5⟩⟩

lemma foldlMin_spec {α : Type} (lt : α → α → Bool)
    (htrans : ∀ {x y z : α}, lt x y = true → lt y z = true → lt x z = true)
    (hirr : ∀ x : α, lt x x = false) :
    ∀ (t : List α) (b : α),
      (t.foldl (fun best x => if lt x best then x else best) b ∈ b :: t) ∧
      (∀ y ∈ b :: t,
        lt y (t.foldl (fun best x => if lt x best then x else best) b) = false) ∧
      (t.foldl (fun best x => if lt x best then x else best) b = b ∨
        lt (t.foldl (fun best x => if lt x best then x else best) b) b = true) := by
  intro t
  induction t with
  | nil =>
    intro b
    refine ⟨List.mem_cons_self b [], ?_, Or.inl rfl⟩
    intro y hy
    rw [List.mem_singleton] at hy
    subst hy
    exact hirr y
  | cons x t ih =>
    intro b
    rw [List.foldl_cons]
    by_cases hx : lt x b = true
    · rw [if_pos hx]
      obtain ⟨hmem, hmin, hbeat⟩ := ih x
      refine ⟨?_, ?_, ?_⟩
      · rcases List.mem_cons.mp hmem with h | h
        · exact List.mem_cons_of_mem b (List.mem_cons.mpr (Or.inl h))
        · exact List.mem_cons_of_mem b (List.mem_cons_of_mem x h)
      · intro y hy
        rcases List.mem_cons.mp hy with h | h
        · subst h
          by_contra hb
          rw [Bool.not_eq_false] at hb
          rcases hbeat with he | he
          · rw [he] at hb
            have := htrans hx hb
            rw [hirr] at this
            exact absurd this (by simp)
          · have hbx := htrans hb he
            have := htrans hx hbx
            rw [hirr] at this
            exact absurd this (by simp)
        · exact hmin y h
      · rcases hbeat with he | he
        · right; rw [he]; exact hx
        · exact Or.inr (htrans he hx)
    · rw [if_neg hx]
      rw [Bool.not_eq_true] at hx
      obtain ⟨hmem, hmin, hbeat⟩ := ih b
      refine ⟨?_, ?_, hbeat⟩
      · rcases List.mem_cons.mp hmem with h | h
        · exact List.mem_cons.mpr (Or.inl h)
        · exact List.mem_cons_of_mem b (List.mem_cons_of_mem x h)
      · intro y hy
        rcases List.mem_cons.mp hy with h | h
        · subst h
          exact hmin y (List.mem_cons_self y t)
        · rcases List.mem_cons.mp h with h2 | h2
          · subst h2
            by_contra hyr
            rw [Bool.not_eq_false] at hyr
            rcases hbeat with he | he
            · rw [he] at hyr
              exact absurd hyr (by rw [hx]; simp)
            · have := htrans hyr he
              rw [hx] at this
              exact absurd this (by simp)
          · exact hmin y (List.mem_cons_of_mem b h2)

/-- C8 (amended).  In every entity group, the canonical node is a member of
the group and no member strictly out-ranks it under the source's ordering:
highest degree first, then highest average incident similarity, then
lexicographically smallest RAW entity name (the source compares
`self.names[i]`, not the NFKC/lower/strip-normalized name the specification
describes — see the counterexample). -/
theorem canonical_first_by_degree_avg_rawname (deg : Nat → Nat) (avg : Nat → ℚ)
    (nm : Nat → List Char) (comp : List Nat) (h : comp ≠ []) :
    canonicalIdx deg avg nm comp ∈ comp ∧
    ∀ y ∈ comp, simKeyLt deg avg nm y (canonicalIdx deg avg nm comp) = false := by
  cases comp with
  | nil => exact absurd rfl h
  | cons b t =>
    obtain ⟨hmem, hmin, _⟩ :=
      foldlMin_spec (simKeyLt deg avg nm) (fun hxy hyz => simKeyLt_trans deg avg nm hxy hyz)
        (simKeyLt_irrefl deg avg nm) t b
    exact ⟨hmem, hmin⟩

/-- Witness for C8 (amended) at a concrete two-node group. -/
theorem canonical_first_by_degree_avg_rawname_witness :
    canonicalIdx (fun _ => 1) (fun _ => 1) (fun i => if i == 0 then ['a'] else ['B']) [0, 1]
        ∈ [0, 1] ∧
    ∀ y ∈ [0, 1], simKeyLt (fun _ => 1) (fun _ => 1)
      (fun i => if i == 0 then ['a'] else ['B']) y
      (canonicalIdx (fun _ => 1) (fun _ => 1)
        (fun i => if i == 0 then ['a'] else ['B']) [0, 1]) = false :=
  canonical_first_by_degree_avg_rawname (fun _ => 1) (fun _ => 1)
    (fun i => if i == 0 then ['a'] else ['B']) [0, 1] (by decide)

/-- The concrete two-node group used to refute the normalized-name tie-break:
one kept edge between nodes 0 and 1 with similarity 1. -/
def edgesC8 : List (Nat × Nat × ℚ) := [(0, 1, 1)]

/-- Raw entity names of the two nodes: "a" and "B". -/
def namesC8 : Nat → List Char := fun i => if i == 0 then ['a'] else ['B']

/-- C8 counterexample.  In the group {0 ↦ "a", 1 ↦ "B"} with one edge of
similarity 1, degrees and average similarities tie, so the name breaks the
tie: the source picks node 1 ("B" < "a" by code points), but under the
specification's normalized names ("a" vs "b") node 0 strictly out-ranks
node 1 — the claimed canonical (first under the normalized ordering) differs
from the code's. -/
theorem canonical_uses_raw_name_counterexample :
    canonicalIdx (degOf edgesC8) (avgOf edgesC8) namesC8 [0, 1] = 1 ∧
    namesC8 1 = ['B'] ∧
    simKeyLt (degOf edgesC8) (avgOf edgesC8)
      (fun i => specNormalize (namesC8 i)) 0 1 = true := by
  have hd0 : degOf edgesC8 0 = 1 := by decide
  have hd1 : degOf edgesC8 1 = 1 := by decide
  have ha0 : avgOf edgesC8 0 = 1 := by norm_num [avgOf, degOf, edgesC8]
  have ha1 : avgOf edgesC8 1 = 1 := by norm_num [avgOf, degOf, edgesC8]
  have hBa : listLt ['B'] ['a'] = true := by decide
  have hab : listLt ['a'] ['b'] = true := by decide
  have hn0 : specNormalize (namesC8 0) = ['a'] := by decide
  have hn1 : specNormalize (namesC8 1) = ['b'] := by decide
  refine ⟨?_, by decide, ?_⟩
  · show (if simKeyLt (degOf edgesC8) (avgOf edgesC8) namesC8 1 0 then (1 : Nat) else 0) = 1
    have hk : simKeyLt (degOf edgesC8) (avgOf edgesC8) namesC8 1 0 = true := by
      simp [simKeyLt, hd0, hd1, ha0, ha1, namesC8, hBa]
    rw [hk]
    rfl
  · simp [simKeyLt, hd0, hd1, ha0, ha1, hn0, hn1, hab]

/-!  C9: protect-set display-form selection. -/

lemma foldl_max_mem : ∀ (l : List Nat) (a : Nat),
    l.foldl Nat.max a = a ∨ l.foldl Nat.max a ∈ l := by
  intro l
  induction l with
  | nil => intro a; exact Or.inl rfl
  | cons x t ih =>
    intro a
    rw [List.foldl_cons]
    rcases ih (Nat.max a x) with h | h
    · rw [h]
      rcases le_total a x with hax | hax
      · refine Or.inr ?_
        have hmx : Nat.max a x = x := Nat.max_eq_right hax
        rw [hmx]
        exact List.mem_cons_self x t
      · refine Or.inl ?_
        exact Nat.max_eq_left hax
    · exact Or.inr (List.mem_cons_of_mem x h)

lemma le_foldl_max : ∀ (l : List Nat) (a : Nat),
    a ≤ l.foldl Nat.max a ∧ ∀ x ∈ l, x ≤ l.foldl Nat.max a := by
  intro l
  induction l with
  | nil => intro a; exact ⟨le_refl a, by simp⟩
  | cons x t ih =>
    intro a
    rw [List.foldl_cons]
    obtain ⟨h1, h2⟩ := ih (Nat.max a x)
    refine ⟨le_trans (Nat.le_max_left a x) h1, ?_⟩
    intro y hy
    rcases List.mem_cons.mp hy with h | h
    · subst h; exact le_trans (Nat.le_max_right a y) h1
    · exact h2 y h

lemma count_le_maxFreq (vs : List (List Char)) : ∀ v ∈ vs, vs.count v ≤ maxFreq vs := by
  intro v hv
  exact (le_foldl_max (vs.map fun v => vs.count v) 0).2 (vs.count v)
    (List.mem_map_of_mem _ hv)

lemma mem_tied_count (vs : List (List Char)) {v : List Char}
    (hv : v ∈ tiedVariants vs) : v ∈ vs ∧ vs.count v = maxFreq vs := by
  rw [tiedVariants, List.mem_filter] at hv
  exact ⟨List.mem_dedup.mp hv.1, by simpa using hv.2⟩

lemma tiedVariants_ne_nil (vs : List (List Char)) (h : vs ≠ []) :
    tiedVariants vs ≠ [] := by
  rcases foldl_max_mem (vs.map fun v => vs.count v) 0 with hm | hm
  · exfalso
    cases vs with
    | nil => exact h rfl
    | cons x xs =>
      have hx : 0 < (x :: xs).count x :=
        List.count_pos_iff.mpr (List.mem_cons_self x xs)
      have hle := count_le_maxFreq (x :: xs) x (List.mem_cons_self x xs)
      rw [maxFreq, hm] at hle
      omega
  · rw [List.mem_map] at hm
    obtain ⟨v, hv, hveq⟩ := hm
    have hvt : v ∈ tiedVariants vs := by
      rw [tiedVariants, List.mem_filter]
      exact ⟨List.mem_dedup.mpr hv, by simp [maxFreq, hveq]⟩
    exact List.ne_nil_of_mem hvt

lemma minVariant_spec (l : List (List Char)) (h : l ≠ []) :
    minVariant l ∈ l ∧ ∀ v ∈ l, listLt v (minVariant l) = false := by
  cases l with
  | nil => exact absurd rfl h
  | cons b t =>
    obtain ⟨hmem, hmin, _⟩ :=
      foldlMin_spec listLt (fun hxy hyz => listLt_trans _ _ _ hxy hyz) listLt_irrefl t b
    exact ⟨hmem, hmin⟩

lemma displayForm_eq_lower (vs : List (List Char))
    (hl : (tiedVariants vs).any pyIsLower = true) :
    displayForm vs = minVariant ((tiedVariants vs).filter pyIsLower) := by
  unfold displayForm
  rw [if_pos hl]

lemma displayForm_eq_title (vs : List (List Char))
    (hl : (tiedVariants vs).any pyIsLower = false)
    (ht : (tiedVariants vs).any pyIsTitle = true) :
    displayForm vs = minVariant ((tiedVariants vs).filter pyIsTitle) := by
  unfold displayForm
  rw [if_neg (by simp [hl]), if_pos ht]

lemma displayForm_eq_other (vs : List (List Char))
    (hl : (tiedVariants vs).any pyIsLower = false)
    (ht : (tiedVariants vs).any pyIsTitle = false) :
    displayForm vs = minVariant (tiedVariants vs) := by
  unfold displayForm
  rw [if_neg (by simp [hl]), if_neg (by simp [ht])]

/-- C9.  The chosen display form is one of the raw case variants and attains
the maximal frequency; among the frequency-tied variants the selection
prefers the lexicographically smallest all-lowercase one, else the smallest
all-titlecase one, else the smallest overall ("no variant below it" is
expressed as `listLt v d = false`, i.e. `d ≤ v` in Python's string order);
and on the variants {"Foo", "foo", "foo", "FOO"} (with "foo" twice) the
chosen display form is "foo". -/
theorem display_form_most_frequent_tiebreak (vs : List (List Char)) (h : vs ≠ []) :
    displayForm vs ∈ vs ∧
    (∀ v ∈ vs, vs.count v ≤ vs.count (displayForm vs)) ∧
    ((tiedVariants vs).any pyIsLower = true →
      pyIsLower (displayForm vs) = true ∧
      ∀ v ∈ tiedVariants vs, pyIsLower v = true → listLt v (displayForm vs) = false) ∧
    ((tiedVariants vs).any pyIsLower = false →
      (tiedVariants vs).any pyIsTitle = true →
      pyIsTitle (displayForm vs) = true ∧
      ∀ v ∈ tiedVariants vs, pyIsTitle v = true → listLt v (displayForm vs) = false) ∧
    ((tiedVariants vs).any pyIsLower = false →
      (tiedVariants vs).any pyIsTitle = false →
      ∀ v ∈ tiedVariants vs, listLt v (displayForm vs) = false) ∧
    displayForm ["Foo".data, "foo".data, "foo".data, "FOO".data] = "foo".data := by
  have htied := tiedVariants_ne_nil vs h
  by_cases hl : (tiedVariants vs).any pyIsLower = true
  · have heq := displayForm_eq_lower vs hl
    have hfne : (tiedVariants vs).filter pyIsLower ≠ [] := by
      obtain ⟨v, hv, hvl⟩ := List.any_eq_true.mp hl
      exact List.ne_nil_of_mem (List.mem_filter.mpr ⟨hv, hvl⟩)
    obtain ⟨hdmem, hdmin⟩ := minVariant_spec _ hfne
    rw [← heq] at hdmem hdmin
    have hdf := List.mem_filter.mp hdmem
    obtain ⟨hdvs, hdcnt⟩ := mem_tied_count vs hdf.1
    refine ⟨hdvs, ?_, ?_, ?_, ?_, by decide⟩
    · intro v hv
      rw [hdcnt]
      exact count_le_maxFreq vs v hv
    · intro _
      exact ⟨hdf.2, fun v hv hvl => hdmin v (List.mem_filter.mpr ⟨hv, hvl⟩)⟩
    · intro hc
      rw [hl] at hc
      exact absurd hc (by simp)
    · intro hc
      rw [hl] at hc
      exact absurd hc (by simp)
  · rw [Bool.not_eq_true] at hl
    by_cases ht : (tiedVariants vs).any pyIsTitle = true
    · have heq := displayForm_eq_title vs hl ht
      have hfne : (tiedVariants vs).filter pyIsTitle ≠ [] := by
        obtain ⟨v, hv, hvt⟩ := List.any_eq_true.mp ht
        exact List.ne_nil_of_mem (List.mem_filter.mpr ⟨hv, hvt⟩)
      obtain ⟨hdmem, hdmin⟩ := minVariant_spec _ hfne
      rw [← heq] at hdmem hdmin
      have hdf := List.mem_filter.mp hdmem
      obtain ⟨hdvs, hdcnt⟩ := mem_tied_count vs hdf.1
      refine ⟨hdvs, ?_, ?_, ?_, ?_, by decide⟩
      · intro v hv
        rw [hdcnt]
        exact count_le_maxFreq vs v hv
      · intro hc
        rw [hl] at hc
        exact absurd hc (by simp)
      · intro _ _
        exact ⟨hdf.2, fun v hv hvt => hdmin v (List.mem_filter.mpr ⟨hv, hvt⟩)⟩
      · intro _ hc
        rw [ht] at hc
        exact absurd hc (by simp)
    · rw [Bool.not_eq_true] at ht
      have heq := displayForm_eq_other vs hl ht
      obtain ⟨hdmem, hdmin⟩ := minVariant_spec _ htied
      rw [← heq] at hdmem hdmin
      obtain ⟨hdvs, hdcnt⟩ := mem_tied_count vs hdmem
      refine ⟨hdvs, ?_, ?_, ?_, ?_, by decide⟩
      · intro v hv
        rw [hdcnt]
        exact count_le_maxFreq vs v hv
      · intro hc
        rw [hl] at hc
        exact absurd hc (by simp)
      · intro _ hc
        rw [ht] at hc
        exact absurd hc (by simp)
      · intro _ _
        exact hdmin

/-- Witness for C9 at the specification's own example input. -/
theorem display_form_most_frequent_tiebreak_witness :
    displayForm ["Foo".data, "foo".data, "foo".data, "FOO".data]
        ∈ ["Foo".data, "foo".data, "foo".data, "FOO".data] ∧
    (∀ v ∈ ["Foo".data, "foo".data, "foo".data, "FOO".data],
      List.count v ["Foo".data, "foo".data, "foo".data, "FOO".data] ≤
        List.count (displayForm ["Foo".data, "foo".data, "foo".data, "FOO".data])
          ["Foo".data, "foo".data, "foo".data, "FOO".data]) ∧
    ((tiedVariants ["Foo".data, "foo".data, "foo".data, "FOO".data]).any pyIsLower = true →
      pyIsLower (displayForm ["Foo".data, "foo".data, "foo".data, "FOO".data]) = true ∧
      ∀ v ∈ tiedVariants ["Foo".data, "foo".data, "foo".data, "FOO".data],
        pyIsLower v = true →
        listLt v (displayForm ["Foo".data, "foo".data, "foo".data, "FOO".data]) = false) ∧
    ((tiedVariants ["Foo".data, "foo".data, "foo".data, "FOO".data]).any pyIsLower = false →
      (tiedVariants ["Foo".data, "foo".data, "foo".data, "FOO".data]).any pyIsTitle = true →
      pyIsTitle (displayForm ["Foo".data, "foo".data, "foo".data, "FOO".data]) = true ∧
      ∀ v ∈ tiedVariants ["Foo".data, "foo".data, "foo".data, "FOO".data],
        pyIsTitle v = true →
        listLt v (displayForm ["Foo".data, "foo".data, "foo".data, "FOO".data]) = false) ∧
    ((tiedVariants ["Foo".data, "foo".data, "foo".data, "FOO".data]).any pyIsLower = false →
      (tiedVariants ["Foo".data, "foo".data, "foo".data, "FOO".data]).any pyIsTitle = false →
      ∀ v ∈ tiedVariants ["Foo".data, "foo".data, "foo".data, "FOO".data],
        listLt v (displayForm ["Foo".data, "foo".data, "foo".data, "FOO".data]) = false) ∧
    displayForm ["Foo".data, "foo".data, "foo".data, "FOO".data] = "foo".data :=
  display_form_most_frequent_tiebreak
    ["Foo".data, "foo".data, "foo".data, "FOO".data] (by decide)

/-!  C2: the neighbor retention of the similarity clusterer. -/

/-- A concrete similarity matrix on 7 nodes exposing the retention step:
node 0 is related to nodes 1..5 with similarities 0.81..0.85 and to node 6
with similarity 0.90; all other pairs are unrelated. -/
def simC2 : Nat → Nat → ℚ := fun i j =>
  if i == 0 && decide (1 ≤ j) && decide (j ≤ 5) then ((80 + j : ℕ) : ℚ) / 100
  else if i == 0 && j == 6 then 90 / 100 else 0

/-- C2, evaluated at the failing input.  With related_threshold 0.80 and
K = RECIPROCAL_TOP_K = 5, node 0 has six neighbors above threshold, and the
retention `lst[:K]` keeps the first five in index order — nodes 1..5 with
similarities 0.81..0.85 — while dropping node 6, whose similarity 0.90 is
strictly above every retained one and above the threshold.  The documented
"top-K highest-similarity" retention would keep node 6; the code never sorts
the neighbor list by similarity. -/
theorem topk_retention_ignores_similarity :
    (topkNeighbors 7 (80 / 100) RECIPROCAL_TOP_K simC2 0).map Prod.fst = [1, 2, 3, 4, 5] ∧
    ((topkNeighbors 7 (80 / 100) RECIPROCAL_TOP_K simC2 0).all
      (fun p => decide (p.2 < simC2 0 6))) = true ∧
    (80 / 100 : ℚ) ≤ simC2 0 6 ∧
    (6 : Nat) ∉ (topkNeighbors 7 (80 / 100) RECIPROCAL_TOP_K simC2 0).map Prod.fst := by
  norm_num [topkNeighbors, neighborsOf, simC2, RECIPROCAL_TOP_K, List.range_succ]

end FinOps
